import Mathlib

set_option maxRecDepth 100000

/-!
Verification of the `etag` repository (`src/index.js`).

The development shallowly embeds the module in Lean 4:

* the digest engine (`crypto.createHash('sha1')...digest('base64').substring(0, 27)`,
  lines 79-83 of `src/index.js`) is implemented bit-for-bit as `sha1`/`base64Core`;
* JS semantics that the source relies on are modelled explicitly: UTF-16 code
  units for `String.prototype.length`/`charCodeAt`, UTF-8 byte length for
  `Buffer.byteLength(entity, 'utf8')`, `Number.prototype.toString` in bases
  10 and 16, and the `"NaN"`/`"undefined"` renderings of out-of-range indexing;
* the module-level mutable caches (`hashCache`, `hashCacheKeys`, `statCache`,
  lines 36-40) become an explicit `EtagState` threaded through the functions;
  `Date.now()` becomes an explicit `now : Nat` argument;
* a JS `Map` is modelled as an insertion-ordered association list with
  replace-in-place `set` and remove `delete`, which agrees with `Map`
  semantics because every state built by the operations keeps keys unique;
* `etag`'s `throw new TypeError(...)` becomes an `Except String` result.
-/

/-! ## JS number rendering (`Number.prototype.toString` for naturals / integers) -/

/-- Digits of `n` in base `b`, most significant first, accumulated onto `ds`.
`fuel` bounds the recursion; `fuel > n` is always enough. -/
def digitsCore (b : Nat) : Nat → Nat → List Nat → List Nat
  | 0, _, ds => ds
  | fuel+1, n, ds =>
    if n / b = 0 then n % b :: ds
    else digitsCore b fuel (n / b) (n % b :: ds)

/-- Digit characters `0-9a-f`, as produced by JS `toString(base)`. -/
def digitChar (d : Nat) : Char :=
  if d < 10 then Char.ofNat (48 + d) else Char.ofNat (87 + d)

def natToBase (b n : Nat) : String := ⟨(digitsCore b (n+1) n []).map digitChar⟩

/-- JS `n.toString()` for a non-negative integer. -/
def natToDec (n : Nat) : String := natToBase 10 n

/-- JS `n.toString(16)` for a non-negative integer. -/
def natToHex (n : Nat) : String := natToBase 16 n

/-- JS `n.toString()` for an integer. -/
def intToDec (i : Int) : String :=
  if i < 0 then "-" ++ natToDec i.natAbs else natToDec i.natAbs

/-- JS `n.toString(16)` for an integer. -/
def intToHex (i : Int) : String :=
  if i < 0 then "-" ++ natToHex i.natAbs else natToHex i.natAbs

/-! ## The digest engine: SHA-1 and base64
(`crypto.createHash('sha1').update(entity, 'utf8').digest('base64')`,
`src/index.js` lines 79-83). Bytes are `Nat`s below 256; 32-bit words are
`Nat`s reduced by `w32`. -/

def w32 (n : Nat) : Nat := n % 4294967296

def rotl32 (k x : Nat) : Nat := w32 (x <<< k) ||| (x >>> (32 - k))

def sha1F (t b c d : Nat) : Nat :=
  if t < 20 then (b &&& c) ||| ((b ^^^ 4294967295) &&& d)
  else if t < 40 then b ^^^ c ^^^ d
  else if t < 60 then (b &&& c) ||| (b &&& d) ||| (c &&& d)
  else b ^^^ c ^^^ d

def sha1K (t : Nat) : Nat :=
  if t < 20 then 1518500249 else if t < 40 then 1859775393
  else if t < 60 then 2400959708 else 3395469782

/-- 64-bit big-endian byte rendering (message bit length in SHA-1 padding). -/
def be8 (n : Nat) : List Nat := (List.range 8).map (fun i => n / 2 ^ (8 * (7 - i)) % 256)

/-- 32-bit big-endian byte rendering. -/
def be4 (n : Nat) : List Nat := (List.range 4).map (fun i => n / 2 ^ (8 * (3 - i)) % 256)

def sha1Pad (msg : List Nat) : List Nat :=
  msg ++ 128 :: List.replicate ((119 - msg.length % 64) % 64) 0 ++ be8 (8 * msg.length)

/-- Split into 64-byte blocks (`fuel ≥ length` suffices). -/
def chunksCore : Nat → List Nat → List (List Nat)
  | 0, _ => []
  | _, [] => []
  | fuel+1, l => l.take 64 :: chunksCore fuel (l.drop 64)

def blockWords (blk : List Nat) : List Nat :=
  (List.range 16).map (fun i =>
    blk.getD (4*i) 0 * 16777216 + blk.getD (4*i+1) 0 * 65536 +
    blk.getD (4*i+2) 0 * 256 + blk.getD (4*i+3) 0)

def sha1Extend (ws : List Nat) : List Nat :=
  (List.range 64).foldl (fun w i =>
    w ++ [rotl32 1 (w.getD (i+13) 0 ^^^ w.getD (i+8) 0 ^^^ w.getD (i+2) 0 ^^^ w.getD i 0)]) ws

def sha1Block (h : List Nat) (blk : List Nat) : List Nat :=
  let w := sha1Extend (blockWords blk)
  let st := (List.range 80).foldl
    (fun (st : Nat × Nat × Nat × Nat × Nat) t =>
      (w32 (rotl32 5 st.1 + sha1F t st.2.1 st.2.2.1 st.2.2.2.1 + st.2.2.2.2 + sha1K t + w.getD t 0),
       st.1, rotl32 30 st.2.1, st.2.2.1, st.2.2.2.1))
    (h.getD 0 0, h.getD 1 0, h.getD 2 0, h.getD 3 0, h.getD 4 0)
  [w32 (h.getD 0 0 + st.1), w32 (h.getD 1 0 + st.2.1), w32 (h.getD 2 0 + st.2.2.1),
   w32 (h.getD 3 0 + st.2.2.2.1), w32 (h.getD 4 0 + st.2.2.2.2)]

/-- SHA-1 of a byte sequence, as a list of 20 bytes. -/
def sha1 (msg : List Nat) : List Nat :=
  let padded := sha1Pad msg
  ((chunksCore padded.length padded).foldl sha1Block
    [1732584193, 4023233417, 2562383102, 271733878, 3285377520]).map be4 |>.flatten

/-- Standard base64 alphabet. -/
def b64Char (n : Nat) : Char :=
  if n < 26 then Char.ofNat (65 + n)
  else if n < 52 then Char.ofNat (71 + n)
  else if n < 62 then Char.ofNat (n - 4)
  else if n = 62 then '+' else '/'

def base64Core : List Nat → List Char
  | [] => []
  | [b1] => [b64Char (b1 / 4), b64Char (b1 % 4 * 16), '=', '=']
  | [b1, b2] => [b64Char (b1 / 4), b64Char (b1 % 4 * 16 + b2 / 16), b64Char (b2 % 16 * 4), '=']
  | b1 :: b2 :: b3 :: rest =>
    b64Char (b1 / 4) :: b64Char (b1 % 4 * 16 + b2 / 16) :: b64Char (b2 % 16 * 4 + b3 / 64)
      :: b64Char (b3 % 64) :: base64Core rest

/-- `crypto.createHash('sha1').update(bytes).digest('base64').substring(0, 27)`
(`src/index.js` lines 79-83). -/
def hashB64 (bytes : List Nat) : String := ⟨(base64Core (sha1 bytes)).take 27⟩

/-! ## JS string model
A JS string entity is modelled as a Lean `String` (a list of Unicode scalar
values; JS strings with lone surrogates are outside the model's domain).
`String.prototype.length` and `charCodeAt` work on UTF-16 code units;
`Buffer.byteLength(s, 'utf8')` and the digest input use the UTF-8 encoding. -/

def utf16Units (c : Char) : List Nat :=
  if c.toNat < 65536 then [c.toNat]
  else [55296 + (c.toNat - 65536) / 1024, 56320 + (c.toNat - 65536) % 1024]

def strUtf16 (s : String) : List Nat := (s.data.map utf16Units).flatten

def utf8Bytes (c : Char) : List Nat :=
  let n := c.toNat
  if n < 128 then [n]
  else if n < 2048 then [192 + n / 64, 128 + n % 64]
  else if n < 65536 then [224 + n / 4096, 128 + n / 64 % 64, 128 + n % 64]
  else [240 + n / 262144, 128 + n / 4096 % 64, 128 + n / 64 % 64, 128 + n % 64]

def strUtf8 (s : String) : List Nat := (s.data.map utf8Bytes).flatten

/-! ## Entities (string or Buffer payloads) -/

/-- A payload accepted by `entitytag`: a JS string or a `Buffer`
(byte list; real buffers have bytes below 256). -/
inductive Entity where
  | str : String → Entity
  | buf : List Nat → Entity
deriving DecidableEq

/-- JS `entity.length` (UTF-16 code units for a string, bytes for a Buffer);
used by the `entity.length === 0` fast-path test, line 56. -/
def Entity.jsLength : Entity → Nat
  | .str s => (strUtf16 s).length
  | .buf b => b.length

/-- `var len = isBuffer ? entity.length : Buffer.byteLength(entity, 'utf8')`, line 62. -/
def Entity.byteLen : Entity → Nat
  | .str s => (strUtf8 s).length
  | .buf b => b.length

/-- The byte sequence fed to the SHA-1 digest: raw bytes for a Buffer,
UTF-8 encoding for a string (`.update(entity, 'utf8')`, line 81). -/
def Entity.bytes : Entity → List Nat
  | .str s => strUtf8 s
  | .buf b => b

/-- Rendering of `buffer[i]` inside a template-free string concatenation:
the byte's decimal form, or `"undefined"` out of range. -/
def jsIndexNat (l : List Nat) (i : Nat) : String :=
  match l.get? i with
  | some v => natToDec v
  | none => "undefined"

/-- Rendering of `s.charCodeAt(i)` in string concatenation: the UTF-16 code
unit's decimal form, or `"NaN"` out of range. -/
def jsCharCodeAt (s : String) (i : Nat) : String :=
  match (strUtf16 s).get? i with
  | some u => natToDec u
  | none => "NaN"

/-- The content-cache fingerprint key, lines 65-70:
`len + '-' + entity[0] + '-' + entity[len - 1]` for a Buffer and
`len + '-' + entity.charCodeAt(0) + '-' + entity.charCodeAt(len - 1)` for a
string, where `len` is `Entity.byteLen` (the UTF-8 byte length for strings —
so for non-ASCII strings `charCodeAt(len - 1)` can be out of range and render
as `"NaN"`, exactly as in the source). -/
def Entity.cacheKey : Entity → String
  | .buf b => natToDec b.length ++ "-" ++ jsIndexNat b 0 ++ "-" ++ jsIndexNat b (b.length - 1)
  | .str s => natToDec (strUtf8 s).length ++ "-" ++ jsCharCodeAt s 0 ++
      "-" ++ jsCharCodeAt s ((strUtf8 s).length - 1)

/-- The strong content tag computed on a cache miss, lines 79-85:
`'"' + len.toString(16) + '-' + hash + '"'`. -/
def strongTagOf (e : Entity) : String :=
  "\"" ++ natToHex e.byteLen ++ "-" ++ hashB64 e.bytes ++ "\""

/-! ## Module constants (`src/index.js` lines 36-44) -/

def HASH_CACHE_SIZE : Nat := 1000

def STAT_CACHE_TTL : Nat := 5000

def EMPTY_TAG : String := "\"0-2jmj7l5rSw0yVb/vlWAYkK/YBwk\""

def WEAK_EMPTY_TAG : String := "W/" ++ EMPTY_TAG

/-! ## JS `Map` model -/

def mapGet {α : Type} : List (String × α) → String → Option α
  | [], _ => none
  | p :: rest, k => if p.1 = k then some p.2 else mapGet rest k

def mapSet {α : Type} : List (String × α) → String → α → List (String × α)
  | [], k, v => [(k, v)]
  | p :: rest, k, v => if p.1 = k then (k, v) :: rest else p :: mapSet rest k v

def mapDelete {α : Type} : List (String × α) → String → List (String × α)
  | [], _ => []
  | p :: rest, k => if p.1 = k then rest else p :: mapDelete rest k

/-! ## Module state -/

/-- A `hashCache` entry, line 93: `{ entity: entity, tag: tag }`. -/
structure HashEntry where
  entity : Entity
  tag : String
deriving DecidableEq

/-- A `statCache` entry, lines 185-189:
`{ strongTag: tag, weakTag: weakTag, timestamp: now }`. -/
structure StatEntry where
  strongTag : String
  weakTag : String
  timestamp : Nat
deriving DecidableEq

/-- The module-level mutable state, lines 38-40. -/
structure EtagState where
  hashCache : List (String × HashEntry)
  hashCacheKeys : List String
  statCache : List (String × StatEntry)
deriving DecidableEq

/-- The state at module load: all caches empty. -/
def initialState : EtagState := ⟨[], [], []⟩

def wrapWeak (weak : Bool) (tag : String) : String := if weak then "W/" ++ tag else tag

/-- The hit test of lines 73-76: `cached && cached.entity === entity`, giving
the cached tag on full-payload match. JS `===` is value equality on strings
and reference equality on Buffers; reference equality implies value equality,
so the model compares values. -/
def hitTag (cached : Option HashEntry) (entity : Entity) : Option String :=
  match cached with
  | some c => if c.entity = entity then some c.tag else none
  | none => none

/-- The cache update of lines 87-93: when at capacity, shift the oldest key
off `hashCacheKeys` and delete it from the map (a shift of an empty key list
yields `undefined` in JS, whose deletion is a no-op); then push the new key
and set the entry. -/
def insertHash (s : EtagState) (cacheKey : String) (entry : HashEntry) : EtagState :=
  let pruned :=
    if HASH_CACHE_SIZE ≤ s.hashCache.length then
      match s.hashCacheKeys with
      | [] => (s.hashCache, ([] : List String))
      | oldestKey :: rest => (mapDelete s.hashCache oldestKey, rest)
    else (s.hashCache, s.hashCacheKeys)
  { s with hashCache := mapSet pruned.1 cacheKey entry,
           hashCacheKeys := pruned.2 ++ [cacheKey] }

/-- `entitytag(entity, weak)`, lines 55-96. -/
def entitytag (entity : Entity) (weak : Bool) (s : EtagState) : String × EtagState :=
  if entity.jsLength = 0 then
    (if weak then WEAK_EMPTY_TAG else EMPTY_TAG, s)
  else
    match hitTag (mapGet s.hashCache entity.cacheKey) entity with
    | some tag => (wrapWeak weak tag, s)
    | none =>
      let tag := strongTagOf entity
      (wrapWeak weak tag, insertHash s entity.cacheKey ⟨entity, tag⟩)

/-! ## Stats -/

/-- The metadata a `stattag` call reads from its argument (lines 164-166):
`stat.mtime.getTime()` (epoch milliseconds), `stat.size`, `stat.ino`.
JS numbers are modelled on integer values. -/
structure Stat where
  ino : Int
  mtimeMs : Int
  size : Int
deriving DecidableEq

/-- `var cacheKey = ino + '-' + mtime`, line 169. -/
def statKey (stat : Stat) : String := intToDec stat.ino ++ "-" ++ intToDec stat.mtimeMs

/-- The strong tag of lines 179-181: `'"' + sizeHex + '-' + mtimeHex + '"'`. -/
def statTagOf (stat : Stat) : String :=
  "\"" ++ intToHex stat.size ++ "-" ++ intToHex stat.mtimeMs ++ "\""

/-- The miss path of `stattag`, lines 178-204: compute both tags, overwrite
the cache entry, then sweep every stale entry when the cache has grown past
`HASH_CACHE_SIZE`. `now - timestamp` truncates at 0 in `Nat`, which selects
the same branch as JS arithmetic whenever it differs. -/
def statCompute (stat : Stat) (weak : Bool) (now : Nat) (s : EtagState) : String × EtagState :=
  let tag := statTagOf stat
  let weakTag := "W/" ++ tag
  let c1 := mapSet s.statCache (statKey stat) ⟨tag, weakTag, now⟩
  let c2 := if HASH_CACHE_SIZE < c1.length
    then c1.filter (fun p => now - p.2.timestamp < STAT_CACHE_TTL)
    else c1
  (if weak then weakTag else tag, { s with statCache := c2 })

/-- `stattag(stat, weak)`, lines 163-205, with `Date.now()` passed in as `now`. -/
def stattag (stat : Stat) (weak : Bool) (now : Nat) (s : EtagState) : String × EtagState :=
  match mapGet s.statCache (statKey stat) with
  | some cached =>
    if now - cached.timestamp < STAT_CACHE_TTL then
      (if weak then cached.weakTag else cached.strongTag, s)
    else statCompute stat weak now s
  | none => statCompute stat weak now s

/-! ## The dispatcher `etag(entity, options)` (lines 108-130) and its
argument model. -/

/-- The runtime type of a field of a duck-typed object, as far as `isstats`
inspects it: a `Date` (with its epoch-milliseconds value), a number, or
anything else. -/
inductive JsField where
  | date : Int → JsField
  | num : Int → JsField
  | other : JsField
deriving DecidableEq

/-- An object argument: either a genuine `fs.Stats` instance
(`nativeStats = true`) or a plain object, with the four fields `isstats`
inspects (`none` = absent). -/
structure JsObject where
  nativeStats : Bool
  ctime : Option JsField
  mtime : Option JsField
  ino : Option JsField
  size : Option JsField
deriving DecidableEq

/-- A JS value passed as `entity`: `null`/`undefined`, a string, a `Buffer`,
a number, a boolean, or an object. -/
inductive JsValue where
  | nullish : JsValue
  | str : String → JsValue
  | buf : List Nat → JsValue
  | num : Int → JsValue
  | bool : Bool → JsValue
  | obj : JsObject → JsValue
deriving DecidableEq

def isDateField : Option JsField → Bool
  | some (.date _) => true
  | _ => false

def isNumField : Option JsField → Bool
  | some (.num _) => true
  | _ => false

/-- `isstats(obj)`, lines 140-152: a genuine `fs.Stats` instance, or a
duck-typed check that `ctime`/`mtime` are `Date`s and `ino`/`size` numbers.
For every non-object value (including Buffers, which lack the fields, and
primitives, which fail `typeof obj === 'object'`) the check is falsy. -/
def isstats : JsValue → Bool
  | .obj o => o.nativeStats ||
      (isDateField o.ctime && isDateField o.mtime && isNumField o.ino && isNumField o.size)
  | _ => false

/-- The values `stattag` reads off an object. The fall-back `0`s are
unreachable from `etag`: `isstats` guarantees the shapes (a genuine
`fs.Stats` always carries correctly-typed fields). -/
def JsObject.toStat (o : JsObject) : Stat :=
  { ino := match o.ino with | some (.num n) => n | _ => 0
    mtimeMs := match o.mtime with | some (.date t) => t | _ => 0
    size := match o.size with | some (.num n) => n | _ => 0 }

/-- The `options` argument: `weak = some b` exactly when `options.weak` is
present with boolean value `b` (`typeof options.weak === 'boolean'`). -/
structure EtagOptions where
  weak : Option Bool
deriving DecidableEq

/-- `etag(entity, options)`, lines 108-130. `TypeError` throws become
`Except.error` with the thrown message. -/
def etag (entity : JsValue) (options : Option EtagOptions) (now : Nat) (s : EtagState) :
    Except String String × EtagState :=
  match entity with
  | .nullish => (.error "argument entity is required", s)
  | _ =>
    let isStats := isstats entity
    let weak := match options with
      | some o => match o.weak with | some b => b | none => isStats
      | none => isStats
    match entity with
    | .obj o =>
      if isStats then
        let r := stattag o.toStat weak now s
        (.ok r.1, r.2)
      else (.error "argument entity must be string, Buffer, or fs.Stats", s)
    | .str str =>
      let r := entitytag (.str str) weak s
      (.ok r.1, r.2)
    | .buf b =>
      let r := entitytag (.buf b) weak s
      (.ok r.1, r.2)
    | _ => (.error "argument entity must be string, Buffer, or fs.Stats", s)

/-- Payloads embed into `JsValue`. -/
def Entity.toJsValue : Entity → JsValue
  | .str s => .str s
  | .buf b => .buf b

/-- States reachable from module load by any sequence of `etag` calls. -/
inductive Reachable : EtagState → Prop where
  | init : Reachable initialState
  | step (v : JsValue) (opts : Option EtagOptions) (now : Nat) (s : EtagState) :
      Reachable s → Reachable (etag v opts now s).2

/-! ## Derived notions the claims are about -/

/-- The content-cache coherence invariant: every cached entry maps its stored
payload to exactly the tag that a direct digest computation yields for it. -/
def HashCoherent (s : EtagState) : Prop :=
  ∀ p ∈ s.hashCache, p.2.tag = strongTagOf p.2.entity

/-- The content tag as the specification words it: a quote, the byte length
in hexadecimal (raw length for a Buffer, UTF-8 encoded length for a string),
a dash, the first 27 characters of the base64-encoded SHA-1 digest of the
payload bytes, a quote; prefixed with `W/` in the weak form. Written from the
spec's words, to be compared with the implementation's path. -/
def specContentTag (e : Entity) (w : Bool) : String :=
  let len : Nat := match e with | .buf b => b.length | .str s => (strUtf8 s).length
  let digest : List Nat := sha1 (match e with | .buf b => b | .str s => strUtf8 s)
  let tag := "\"" ++ natToHex len ++ "-" ++ (⟨(base64Core digest).take 27⟩ : String) ++ "\""
  if w then "W/" ++ tag else tag

/-- Run a sequence of strong-tag `entitytag` calls, returning the final state. -/
def runEnt (es : List Entity) (s : EtagState) : EtagState :=
  es.foldl (fun t e => (entitytag e false t).2) s

/-- The all-zero buffer of length `n`: a payload family whose fingerprint keys
are pairwise distinct across lengths. -/
def zbuf (n : Nat) : Entity := .buf (List.replicate n 0)

/-- A concrete call sequence overflowing the content cache: two distinct
3-byte buffers sharing the fingerprint key `"3-0-0"` (the second call pushes
that key onto `hashCacheKeys` a second time while overwriting in place), then
1001 all-zero buffers of lengths 4 through 1004, each with a fresh key. -/
def overflowSeq : List Entity :=
  .buf [0, 5, 0] :: .buf [0, 7, 0] :: (List.range' 4 1001).map zbuf

/-- The fingerprint key `"3-0-0"` shared by the first two `overflowSeq`
payloads (and by `zbuf 3`). -/
def ovK : String := (Entity.buf [0, 5, 0]).cacheKey

/-- The entry left at key `"3-0-0"` after the second `overflowSeq` call. -/
def ovE2 : HashEntry := ⟨Entity.buf [0, 7, 0], strongTagOf (Entity.buf [0, 7, 0])⟩

/-- The 999 filler payloads of `overflowSeq` (lengths 4 through 1002). -/
def ovFill : List Entity := (List.range' 4 999).map zbuf

def ovFm : List (String × HashEntry) :=
  ovFill.map (fun e => (e.cacheKey, ⟨e, strongTagOf e⟩))

def ovFk : List String := ovFill.map Entity.cacheKey

def JsValue.isString : JsValue → Bool
  | .str _ => true
  | _ => false

def JsValue.isBuffer : JsValue → Bool
  | .buf _ => true
  | _ => false

/-- The `weak` flag `etag` computes for a payload argument (where
`isstats` is `false`): an explicitly supplied boolean, defaulting to strong. -/
def payloadWeak (options : Option EtagOptions) : Bool :=
  match options with
  | some o => match o.weak with | some b => b | none => false
  | none => false

/-- Inverse of decimal rendering, used to prove `natToDec` injective:
read a digit-character list back as a number. -/
def parseChars (l : List Char) : Nat := l.foldl (fun a c => 10 * a + (c.toNat - 48)) 0

/-! ## Association-list map lemmas -/

theorem mapGet_nil {α : Type} (k : String) : mapGet ([] : List (String × α)) k = none := rfl

theorem mapGet_cons {α : Type} (p : String × α) (m : List (String × α)) (k : String) :
    mapGet (p :: m) k = if p.1 = k then some p.2 else mapGet m k := rfl

theorem mapGet_eq_none {α : Type} {m : List (String × α)} {k : String}
    (h : ∀ p ∈ m, p.1 ≠ k) : mapGet m k = none := by
  induction m with
  | nil => rfl
  | cons p rest ih =>
    rw [mapGet_cons, if_neg (h p (List.mem_cons_self p rest))]
    exact ih fun q hq => h q (List.mem_cons_of_mem p hq)

theorem ne_of_mapGet_none {α : Type} {m : List (String × α)} {k : String}
    (h : mapGet m k = none) : ∀ p ∈ m, p.1 ≠ k := by
  induction m with
  | nil => intro p hp; cases hp
  | cons p rest ih =>
    rw [mapGet_cons] at h
    intro q hq
    rcases List.mem_cons.1 hq with rfl | hq'
    · intro hk; rw [if_pos hk] at h; cases h
    · have h' : mapGet rest k = none := by
        by_cases hpk : p.1 = k
        · rw [if_pos hpk] at h; cases h
        · rwa [if_neg hpk] at h
      exact ih h' q hq'

theorem mapGet_append_of_none {α : Type} {m₁ : List (String × α)} (m₂ : List (String × α))
    {k : String} (h : mapGet m₁ k = none) : mapGet (m₁ ++ m₂) k = mapGet m₂ k := by
  induction m₁ with
  | nil => rfl
  | cons p rest ih =>
    rw [mapGet_cons] at h
    by_cases hpk : p.1 = k
    · rw [if_pos hpk] at h; cases h
    · rw [if_neg hpk] at h
      rw [List.cons_append, mapGet_cons, if_neg hpk]
      exact ih h

theorem mapGet_append_of_some {α : Type} {m₁ : List (String × α)} (m₂ : List (String × α))
    {k : String} {v : α} (h : mapGet m₁ k = some v) : mapGet (m₁ ++ m₂) k = some v := by
  induction m₁ with
  | nil => cases h
  | cons p rest ih =>
    rw [mapGet_cons] at h
    rw [List.cons_append, mapGet_cons]
    by_cases hpk : p.1 = k
    · rwa [if_pos hpk] at h ⊢
    · rw [if_neg hpk] at h ⊢; exact ih h

theorem mapSet_of_none {α : Type} {m : List (String × α)} {k : String}
    (h : mapGet m k = none) (v : α) : mapSet m k v = m ++ [(k, v)] := by
  induction m with
  | nil => rfl
  | cons p rest ih =>
    rw [mapGet_cons] at h
    by_cases hpk : p.1 = k
    · rw [if_pos hpk] at h; cases h
    · rw [if_neg hpk] at h
      simp only [mapSet, if_neg hpk, List.cons_append, List.cons.injEq, true_and]
      exact ih h

theorem mapGet_mapSet_self {α : Type} (m : List (String × α)) (k : String) (v : α) :
    mapGet (mapSet m k v) k = some v := by
  induction m with
  | nil => simp [mapSet, mapGet]
  | cons p rest ih =>
    by_cases hpk : p.1 = k
    · simp [mapSet, hpk, mapGet]
    · simp [mapSet, hpk, mapGet, ih]

theorem mem_of_mapGet_some {α : Type} {m : List (String × α)} {k : String} {v : α}
    (h : mapGet m k = some v) : (k, v) ∈ m := by
  induction m with
  | nil => cases h
  | cons p rest ih =>
    rw [mapGet_cons] at h
    by_cases hpk : p.1 = k
    · rw [if_pos hpk] at h
      injection h with h
      have hp : p = (k, v) := by
        calc p = (p.1, p.2) := rfl
          _ = (k, v) := by rw [hpk, h]
      rw [← hp]
      exact List.mem_cons_self p rest
    · rw [if_neg hpk] at h
      exact List.mem_cons_of_mem p (ih h)

theorem mem_mapSet {α : Type} {m : List (String × α)} {k : String} {v : α} {p : String × α}
    (h : p ∈ mapSet m k v) : p ∈ m ∨ p = (k, v) := by
  induction m with
  | nil =>
    simp only [mapSet] at h
    rcases List.mem_singleton.1 h with rfl
    exact Or.inr rfl
  | cons q rest ih =>
    by_cases hqk : q.1 = k
    · simp only [mapSet, if_pos hqk] at h
      rcases List.mem_cons.1 h with rfl | h'
      · exact Or.inr rfl
      · exact Or.inl (List.mem_cons_of_mem q h')
    · simp only [mapSet, if_neg hqk] at h
      rcases List.mem_cons.1 h with rfl | h'
      · exact Or.inl (List.mem_cons_self _ _)
      · rcases ih h' with h'' | h''
        · exact Or.inl (List.mem_cons_of_mem q h'')
        · exact Or.inr h''

theorem mem_mapDelete {α : Type} {m : List (String × α)} {k : String} {p : String × α}
    (h : p ∈ mapDelete m k) : p ∈ m := by
  induction m with
  | nil => cases h
  | cons q rest ih =>
    by_cases hqk : q.1 = k
    · simp only [mapDelete, if_pos hqk] at h
      exact List.mem_cons_of_mem q h
    · simp only [mapDelete, if_neg hqk] at h
      rcases List.mem_cons.1 h with rfl | h'
      · exact List.mem_cons_self _ _
      · exact List.mem_cons_of_mem q (ih h')

theorem mapDelete_of_none {α : Type} {m : List (String × α)} {k : String}
    (h : mapGet m k = none) : mapDelete m k = m := by
  induction m with
  | nil => rfl
  | cons p rest ih =>
    rw [mapGet_cons] at h
    by_cases hpk : p.1 = k
    · rw [if_pos hpk] at h; cases h
    · rw [if_neg hpk] at h
      simp only [mapDelete, if_neg hpk, List.cons.injEq, true_and]
      exact ih h

theorem mapDelete_cons_of_eq {α : Type} {p : String × α} {m : List (String × α)} {k : String}
    (h : p.1 = k) : mapDelete (p :: m) k = m := by
  simp [mapDelete, h]

theorem mapGet_mapDelete_of_none {α : Type} {m : List (String × α)} {k k₀ : String}
    (h : mapGet m k = none) : mapGet (mapDelete m k₀) k = none :=
  mapGet_eq_none fun p hp => ne_of_mapGet_none h p (mem_mapDelete hp)

theorem mapGet_filter {α : Type} {m : List (String × α)} {k : String} {v : α}
    (q : String × α → Bool) (h : mapGet m k = some v) (hq : q (k, v) = true) :
    mapGet (m.filter q) k = some v := by
  induction m with
  | nil => cases h
  | cons p rest ih =>
    rw [mapGet_cons] at h
    by_cases hpk : p.1 = k
    · rw [if_pos hpk] at h
      injection h with h
      have hp : p = (k, v) := by
        calc p = (p.1, p.2) := rfl
          _ = (k, v) := by rw [hpk, h]
      rw [List.filter_cons, hp, hq]
      simp [mapGet]
    · rw [if_neg hpk] at h
      rw [List.filter_cons]
      by_cases hqp : q p = true
      · rw [if_pos hqp, mapGet_cons, if_neg hpk]
        exact ih h
      · simp only [hqp, if_false]
        exact ih h

/-! ## Basic facts about tags and the empty fast path -/

theorem strUtf16_eq_nil {s : String} (h : (strUtf16 s).length = 0) : s = "" := by
  cases s with
  | mk data =>
    cases data with
    | nil => rfl
    | cons c rest =>
      exfalso
      unfold strUtf16 at h
      simp only [List.map_cons, List.flatten_cons, List.length_append] at h
      have hc : (utf16Units c).length ≠ 0 := by
        unfold utf16Units
        split <;> simp
      omega

theorem strongTagOf_empty : strongTagOf (.str "") = EMPTY_TAG := by decide

theorem strongTag_of_len_zero {e : Entity} (h : e.jsLength = 0) : strongTagOf e = EMPTY_TAG := by
  cases e with
  | str s =>
    have hs : s = "" := strUtf16_eq_nil h
    subst hs
    exact strongTagOf_empty
  | buf b =>
    have hb : b = [] := List.length_eq_zero.1 h
    subst hb
    rfl

theorem hashCoherent_initial : HashCoherent initialState := by
  intro p hp
  cases hp

/-! ## `entitytag`: result and state characterization -/

theorem hitTag_correct {s : EtagState} {k : String} {e : Entity} {t : String}
    (hc : HashCoherent s) (h : hitTag (mapGet s.hashCache k) e = some t) :
    t = strongTagOf e := by
  cases hget : mapGet s.hashCache k with
  | none =>
    rw [hget] at h
    simp only [hitTag] at h
    exact Option.noConfusion h
  | some c =>
    rw [hget] at h
    simp only [hitTag] at h
    by_cases hce : c.entity = e
    · rw [if_pos hce] at h
      injection h with h
      have hcoh := hc (k, c) (mem_of_mapGet_some hget)
      rw [← h, hcoh, hce]
    · rw [if_neg hce] at h; cases h

theorem entitytag_fst (e : Entity) (w : Bool) (s : EtagState) (hc : HashCoherent s) :
    (entitytag e w s).1 = wrapWeak w (strongTagOf e) := by
  rw [entitytag]
  by_cases hlen : e.jsLength = 0
  · rw [if_pos hlen, strongTag_of_len_zero hlen]
    cases w <;> rfl
  · rw [if_neg hlen]
    cases hhit : hitTag (mapGet s.hashCache e.cacheKey) e with
    | none => rfl
    | some t =>
      simp only
      rw [hitTag_correct hc hhit]

theorem entitytag_empty_state (e : Entity) (w : Bool) (s : EtagState) (hlen : e.jsLength = 0) :
    (entitytag e w s).2 = s := by
  rw [entitytag, if_pos hlen]

theorem entitytag_hit_state (e : Entity) (w : Bool) (s : EtagState) (t : String)
    (hlen : e.jsLength ≠ 0) (hhit : hitTag (mapGet s.hashCache e.cacheKey) e = some t) :
    (entitytag e w s).2 = s := by
  rw [entitytag, if_neg hlen, hhit]

theorem entitytag_miss_state (e : Entity) (w : Bool) (s : EtagState)
    (hlen : e.jsLength ≠ 0) (hmiss : hitTag (mapGet s.hashCache e.cacheKey) e = none) :
    (entitytag e w s).2 = insertHash s e.cacheKey ⟨e, strongTagOf e⟩ := by
  rw [entitytag, if_neg hlen, hmiss]

theorem mem_insertHash {s : EtagState} {k : String} {entry : HashEntry} {p : String × HashEntry}
    (hp : p ∈ (insertHash s k entry).hashCache) : p ∈ s.hashCache ∨ p = (k, entry) := by
  simp only [insertHash] at hp
  rcases mem_mapSet hp with h | h
  · split at h
    · rcases hks : s.hashCacheKeys with _ | ⟨k₀, kr⟩ <;> rw [hks] at h
      · exact Or.inl h
      · exact Or.inl (mem_mapDelete h)
    · exact Or.inl h
  · exact Or.inr h

theorem hashCoherent_insertHash {s : EtagState} {k : String} {e : Entity}
    (hc : HashCoherent s) : HashCoherent (insertHash s k ⟨e, strongTagOf e⟩) := by
  intro p hp
  rcases mem_insertHash hp with h | h
  · exact hc p h
  · rw [h]

theorem entitytag_hashCoherent (e : Entity) (w : Bool) (s : EtagState) (hc : HashCoherent s) :
    HashCoherent (entitytag e w s).2 := by
  by_cases hlen : e.jsLength = 0
  · rw [entitytag_empty_state e w s hlen]; exact hc
  · cases hhit : hitTag (mapGet s.hashCache e.cacheKey) e with
    | some t => rw [entitytag_hit_state e w s t hlen hhit]; exact hc
    | none =>
      rw [entitytag_miss_state e w s hlen hhit]
      exact hashCoherent_insertHash hc

theorem mapGet_insertHash_self (s : EtagState) (k : String) (entry : HashEntry) :
    mapGet (insertHash s k entry).hashCache k = some entry := by
  simp only [insertHash]
  exact mapGet_mapSet_self _ _ _

theorem entitytag_mapGet_self (e : Entity) (w : Bool) (s : EtagState)
    (hc : HashCoherent s) (hlen : e.jsLength ≠ 0) :
    mapGet (entitytag e w s).2.hashCache e.cacheKey = some ⟨e, strongTagOf e⟩ := by
  cases hhit : hitTag (mapGet s.hashCache e.cacheKey) e with
  | some t =>
    rw [entitytag_hit_state e w s t hlen hhit]
    cases hget : mapGet s.hashCache e.cacheKey with
    | none =>
      rw [hget] at hhit
      simp only [hitTag] at hhit
      exact Option.noConfusion hhit
    | some c =>
      rw [hget] at hhit
      simp only [hitTag] at hhit
      by_cases hce : c.entity = e
      · have hcoh := hc (e.cacheKey, c) (mem_of_mapGet_some hget)
        congr 1
        cases c with
        | mk ce ct =>
          simp only at hce hcoh
          rw [hce] at hcoh ⊢
          rw [hcoh]
      · rw [if_neg hce] at hhit; cases hhit
  | none =>
    rw [entitytag_miss_state e w s hlen hhit]
    exact mapGet_insertHash_self _ _ _

theorem entitytag_statCache (e : Entity) (w : Bool) (s : EtagState) :
    (entitytag e w s).2.statCache = s.statCache := by
  rw [entitytag]
  split
  · rfl
  · split
    · rfl
    · simp only [insertHash]

theorem insertHash_small {s : EtagState} {k : String} (entry : HashEntry)
    (hsz : s.hashCache.length < HASH_CACHE_SIZE) (hfresh : mapGet s.hashCache k = none) :
    insertHash s k entry =
      ⟨s.hashCache ++ [(k, entry)], s.hashCacheKeys ++ [k], s.statCache⟩ := by
  cases s with
  | mk hcache hkeys scache =>
    simp only [insertHash]
    rw [if_neg (by simp only [] at hsz ⊢; omega)]
    rw [mapSet_of_none hfresh]

theorem insertHash_evict {s : EtagState} {k k₀ : String} {kr : List String} (entry : HashEntry)
    (hsz : HASH_CACHE_SIZE ≤ s.hashCache.length) (hkeys : s.hashCacheKeys = k₀ :: kr)
    (hfresh : mapGet s.hashCache k = none) :
    insertHash s k entry =
      ⟨mapDelete s.hashCache k₀ ++ [(k, entry)], kr ++ [k], s.statCache⟩ := by
  cases s with
  | mk hcache hkeys' scache =>
    simp only [] at hkeys hsz hfresh
    subst hkeys
    simp only [insertHash, if_pos hsz]
    rw [mapSet_of_none (mapGet_mapDelete_of_none hfresh)]

theorem hitTag_of_get_none {s : EtagState} {e : Entity}
    (hfresh : mapGet s.hashCache e.cacheKey = none) :
    hitTag (mapGet s.hashCache e.cacheKey) e = none := by
  rw [hfresh]; rfl

theorem entitytag_fresh_small (e : Entity) (w : Bool) (s : EtagState)
    (hlen : e.jsLength ≠ 0) (hfresh : mapGet s.hashCache e.cacheKey = none)
    (hsz : s.hashCache.length < HASH_CACHE_SIZE) :
    (entitytag e w s).2 =
      ⟨s.hashCache ++ [(e.cacheKey, ⟨e, strongTagOf e⟩)],
       s.hashCacheKeys ++ [e.cacheKey], s.statCache⟩ := by
  rw [entitytag_miss_state e w s hlen (hitTag_of_get_none hfresh)]
  exact insertHash_small _ hsz hfresh

theorem entitytag_fresh_evict (e : Entity) (w : Bool) (s : EtagState) {k₀ : String}
    {kr : List String} (hlen : e.jsLength ≠ 0)
    (hfresh : mapGet s.hashCache e.cacheKey = none)
    (hsz : HASH_CACHE_SIZE ≤ s.hashCache.length) (hkeys : s.hashCacheKeys = k₀ :: kr) :
    (entitytag e w s).2 =
      ⟨mapDelete s.hashCache k₀ ++ [(e.cacheKey, ⟨e, strongTagOf e⟩)],
       kr ++ [e.cacheKey], s.statCache⟩ := by
  rw [entitytag_miss_state e w s hlen (hitTag_of_get_none hfresh)]
  exact insertHash_evict _ hsz hkeys hfresh

/-! ## `stattag` and `etag` state lemmas -/

theorem statCompute_hash_parts (d : Stat) (w : Bool) (now : Nat) (s : EtagState) :
    (statCompute d w now s).2.hashCache = s.hashCache ∧
      (statCompute d w now s).2.hashCacheKeys = s.hashCacheKeys := by
  constructor <;> rfl

theorem stattag_hash_parts (d : Stat) (w : Bool) (now : Nat) (s : EtagState) :
    (stattag d w now s).2.hashCache = s.hashCache ∧
      (stattag d w now s).2.hashCacheKeys = s.hashCacheKeys := by
  rw [stattag]
  cases mapGet s.statCache (statKey d) with
  | none => exact statCompute_hash_parts d w now s
  | some c =>
    dsimp only
    split
    · constructor <;> rfl
    · exact statCompute_hash_parts d w now s

theorem hashCoherent_of_hashCache_eq {s t : EtagState} (h : t.hashCache = s.hashCache)
    (hc : HashCoherent s) : HashCoherent t := by
  intro p hp
  exact hc p (h ▸ hp)

theorem etag_hashCoherent (v : JsValue) (opts : Option EtagOptions) (now : Nat)
    (s : EtagState) (hc : HashCoherent s) : HashCoherent (etag v opts now s).2 := by
  cases v with
  | nullish => exact hc
  | str str => exact entitytag_hashCoherent _ _ _ hc
  | buf b => exact entitytag_hashCoherent _ _ _ hc
  | num n => exact hc
  | bool b => exact hc
  | obj o =>
    simp only [etag]
    split
    · exact hashCoherent_of_hashCache_eq (stattag_hash_parts _ _ _ _).1 hc
    · exact hc

theorem reachable_hashCoherent {s : EtagState} (h : Reachable s) : HashCoherent s := by
  induction h with
  | init => exact hashCoherent_initial
  | step v opts now s _ ih => exact etag_hashCoherent v opts now s ih

/-! ## Dispatch of payloads through `etag` -/

theorem isstats_toJsValue (e : Entity) : isstats e.toJsValue = false := by
  cases e <;> rfl

theorem etag_payload_eq (e : Entity) (opts : Option EtagOptions) (now : Nat) (s : EtagState) :
    etag e.toJsValue opts now s =
      (.ok (entitytag e (payloadWeak opts) s).1, (entitytag e (payloadWeak opts) s).2) := by
  cases e with
  | str s₀ =>
    cases opts with
    | none => rfl
    | some o => cases o with | mk ow => cases ow <;> rfl
  | buf b =>
    cases opts with
    | none => rfl
    | some o => cases o with | mk ow => cases ow <;> rfl

theorem etag_payload_fst (e : Entity) (opts : Option EtagOptions) (now : Nat)
    (s : EtagState) (hc : HashCoherent s) :
    (etag e.toJsValue opts now s).1 = .ok (wrapWeak (payloadWeak opts) (strongTagOf e)) := by
  rw [etag_payload_eq, entitytag_fst e (payloadWeak opts) s hc]

/-! ## Injectivity of the decimal rendering -/

theorem digitsCore_acc (b : Nat) :
    ∀ (fuel n : Nat) (ds : List Nat),
      digitsCore b fuel n ds = digitsCore b fuel n [] ++ ds := by
  intro fuel
  induction fuel with
  | zero => intro n ds; rfl
  | succ fuel ih =>
    intro n ds
    by_cases h : n / b = 0
    · simp only [digitsCore, if_pos h]
      rfl
    · simp only [digitsCore, if_neg h]
      rw [ih (n / b) (n % b :: ds), ih (n / b) [n % b], List.append_assoc]
      rfl

theorem digitChar_toNat {d : Nat} (h : d < 10) : (digitChar d).toNat = 48 + d := by
  revert h
  revert d
  decide

theorem parseChars_append_digit (l : List Char) (c : Char) :
    parseChars (l ++ [c]) = 10 * parseChars l + (c.toNat - 48) := by
  simp [parseChars, List.foldl_append]

theorem parseChars_digitsCore :
    ∀ (fuel n : Nat), n < fuel →
      parseChars ((digitsCore 10 fuel n []).map digitChar) = n := by
  intro fuel
  induction fuel with
  | zero => intro n h; omega
  | succ fuel ih =>
    intro n h
    by_cases h0 : n / 10 = 0
    · have hn : n < 10 := by omega
      simp only [digitsCore, if_pos h0, List.map_cons, List.map_nil]
      have : n % 10 = n := Nat.mod_eq_of_lt hn
      rw [this]
      simp [parseChars, digitChar_toNat hn]
    · simp only [digitsCore, if_neg h0]
      rw [digitsCore_acc, List.map_append, List.map_cons, List.map_nil,
        parseChars_append_digit]
      have hdiv : n / 10 < fuel := by
        have h1 : 0 < n := by
          rcases Nat.eq_zero_or_pos n with rfl | h1
          · simp at h0
          · exact h1
        have := Nat.div_lt_self h1 (by omega : 1 < 10)
        omega
      rw [ih (n / 10) hdiv]
      have hm : n % 10 < 10 := Nat.mod_lt n (by omega)
      rw [digitChar_toNat hm]
      omega

theorem natToDec_inj {m n : Nat} (h : natToDec m = natToDec n) : m = n := by
  simp only [natToDec, natToBase] at h
  injection h with hd
  have hm := parseChars_digitsCore (m + 1) m (Nat.lt_succ_self m)
  have hn := parseChars_digitsCore (n + 1) n (Nat.lt_succ_self n)
  rw [← hm, ← hn, hd]

theorem str_data_append (s t : String) : (s ++ t).data = s.data ++ t.data := by
  cases s
  cases t
  rfl

theorem str_ext {s t : String} (h : s.data = t.data) : s = t := by
  cases s
  cases t
  exact congrArg String.mk h

theorem suffix_key_inj {m n : Nat} (t : String)
    (h : natToDec m ++ t = natToDec n ++ t) : m = n := by
  apply natToDec_inj
  have hd := congrArg String.data h
  rw [str_data_append, str_data_append] at hd
  exact str_ext (List.append_cancel_right hd)

/-! ## The all-zero buffer family -/

theorem replicate_get_zero {n : Nat} (h : n ≠ 0) (i : Nat) (hi : i < n) :
    (List.replicate n (0 : Nat)).get? i = some 0 := by
  induction n generalizing i with
  | zero => omega
  | succ n ih =>
    cases i with
    | zero => rfl
    | succ i =>
      simp only [List.replicate_succ]
      show (List.replicate n 0).get? i = some 0
      rcases Nat.eq_zero_or_pos n with rfl | hn
      · omega
      · exact ih (by omega) i (by omega)

theorem zbuf_jsLength (n : Nat) : (zbuf n).jsLength = n := by
  simp [zbuf, Entity.jsLength]

theorem zbuf_cacheKey {n : Nat} (h : n ≠ 0) : (zbuf n).cacheKey = natToDec n ++ "-0-0" := by
  have h0 : jsIndexNat (List.replicate n 0) 0 = "0" := by
    unfold jsIndexNat
    rw [replicate_get_zero h 0 (by omega)]
    decide
  have h1 : jsIndexNat (List.replicate n 0) (n - 1) = "0" := by
    unfold jsIndexNat
    rw [replicate_get_zero h (n - 1) (by omega)]
    decide
  show natToDec (List.replicate n 0).length ++ "-" ++ jsIndexNat (List.replicate n 0) 0 ++
      "-" ++ jsIndexNat (List.replicate n 0) ((List.replicate n 0).length - 1) = _
  rw [List.length_replicate, h0, h1]
  apply str_ext
  simp [str_data_append]

theorem zbuf_key_ne {m n : Nat} (hm : m ≠ 0) (hn : n ≠ 0) (h : m ≠ n) :
    (zbuf m).cacheKey ≠ (zbuf n).cacheKey := by
  rw [zbuf_cacheKey hm, zbuf_cacheKey hn]
  intro he
  exact h (suffix_key_inj _ he)

/-! ## Generic lookups in entry lists built from a payload family -/

theorem mapGet_entries_none {l : List Entity} {k : String}
    (h : ∀ e ∈ l, e.cacheKey ≠ k) :
    mapGet (l.map fun e => (e.cacheKey, (⟨e, strongTagOf e⟩ : HashEntry))) k = none := by
  apply mapGet_eq_none
  intro p hp
  obtain ⟨e, he, rfl⟩ := List.mem_map.1 hp
  exact h e he

theorem mapGet_entries_mem {l : List Entity} {e : Entity}
    (hpw : (l.map Entity.cacheKey).Pairwise (· ≠ ·)) (he : e ∈ l) :
    mapGet (l.map fun x => (x.cacheKey, (⟨x, strongTagOf x⟩ : HashEntry))) e.cacheKey =
      some ⟨e, strongTagOf e⟩ := by
  induction l with
  | nil => cases he
  | cons x rest ih =>
    rw [List.map_cons, mapGet_cons]
    rw [List.map_cons, List.pairwise_cons] at hpw
    rcases List.mem_cons.1 he with rfl | he'
    · rw [if_pos rfl]
    · rw [if_neg (hpw.1 e.cacheKey (List.mem_map_of_mem Entity.cacheKey he'))]
      exact ih hpw.2 he'

/-! ## Bulk insertion of fresh-key payloads -/

theorem run_nil (s : EtagState) : runEnt [] s = s := rfl

theorem run_cons (e : Entity) (es : List Entity) (s : EtagState) :
    runEnt (e :: es) s = runEnt es (entitytag e false s).2 := rfl

theorem run_append (l₁ l₂ : List Entity) (s : EtagState) :
    runEnt (l₁ ++ l₂) s = runEnt l₂ (runEnt l₁ s) := by
  simp [runEnt, List.foldl_append]

theorem run_fresh :
    ∀ (es : List Entity) (s : EtagState),
      (∀ e ∈ es, e.jsLength ≠ 0) →
      (∀ e ∈ es, mapGet s.hashCache e.cacheKey = none) →
      (es.map Entity.cacheKey).Pairwise (· ≠ ·) →
      s.hashCache.length + es.length ≤ HASH_CACHE_SIZE →
      runEnt es s =
        ⟨s.hashCache ++ es.map (fun e => (e.cacheKey, ⟨e, strongTagOf e⟩)),
         s.hashCacheKeys ++ es.map Entity.cacheKey, s.statCache⟩ := by
  intro es
  induction es with
  | nil =>
    intro s _ _ _ _
    cases s
    simp [run_nil]
  | cons e rest ih =>
    intro s hne hfresh hpw hcap
    have hlen_e : e.jsLength ≠ 0 := hne e (List.mem_cons_self e rest)
    have hfresh_e := hfresh e (List.mem_cons_self e rest)
    have hsz : s.hashCache.length < HASH_CACHE_SIZE := by
      have := List.length_cons e rest
      omega
    rw [run_cons, entitytag_fresh_small e false s hlen_e hfresh_e hsz]
    rw [List.map_cons] at hpw
    have hpwc := List.pairwise_cons.1 hpw
    have hstep := ih ⟨s.hashCache ++ [(e.cacheKey, ⟨e, strongTagOf e⟩)],
        s.hashCacheKeys ++ [e.cacheKey], s.statCache⟩
      (fun e' he' => hne e' (List.mem_cons_of_mem e he'))
      (by
        intro e' he'
        have hne' : e.cacheKey ≠ e'.cacheKey :=
          hpwc.1 e'.cacheKey (List.mem_map_of_mem Entity.cacheKey he')
        show mapGet (s.hashCache ++ [(e.cacheKey, ⟨e, strongTagOf e⟩)]) e'.cacheKey = none
        rw [mapGet_append_of_none _ (hfresh e' (List.mem_cons_of_mem e he'))]
        rw [mapGet_cons, if_neg hne']
        rfl)
      hpwc.2
      (by
        have hlc : (e :: rest).length = rest.length + 1 := List.length_cons e rest
        simp only [List.length_append, List.length_cons, List.length_nil]
        omega)
    rw [hstep]
    simp [List.append_assoc]

theorem zbuf_fam_pairwise {l : List Nat} (h0 : ∀ n ∈ l, n ≠ 0)
    (hpw : l.Pairwise (· ≠ ·)) :
    ((l.map zbuf).map Entity.cacheKey).Pairwise (· ≠ ·) := by
  rw [List.map_map, List.pairwise_map]
  exact List.Pairwise.imp_of_mem
    (fun ha hb hne => zbuf_key_ne (h0 _ ha) (h0 _ hb) hne) hpw

theorem range'_pairwise_ne (s n : Nat) : (List.range' s n).Pairwise (· ≠ ·) :=
  (List.pairwise_lt_range' s n).imp Nat.ne_of_lt

/-- The FIFO chain: from the empty state, a fresh-key payload `e₀` followed by
`HASH_CACHE_SIZE - 1` fresh-key payloads `mid` followed by one more fresh-key
payload `elast` leaves exactly the entries of `mid` and `elast` in the content
cache: the insertion of `elast` happens at capacity and evicts `e₀`. -/
theorem run_fifo_core (e₀ elast : Entity) (mid : List Entity)
    (hmidlen : mid.length + 1 = HASH_CACHE_SIZE)
    (hne : ∀ e ∈ e₀ :: (mid ++ [elast]), e.jsLength ≠ 0)
    (hpw : ((e₀ :: (mid ++ [elast])).map Entity.cacheKey).Pairwise (· ≠ ·)) :
    runEnt (e₀ :: (mid ++ [elast])) initialState =
      ⟨mid.map (fun e => (e.cacheKey, ⟨e, strongTagOf e⟩)) ++
          [(elast.cacheKey, ⟨elast, strongTagOf elast⟩)],
        mid.map Entity.cacheKey ++ [elast.cacheKey], []⟩ := by
  rw [List.map_cons] at hpw
  have hpwc := List.pairwise_cons.1 hpw
  have hhead := hpwc.1
  have htail := hpwc.2
  rw [List.map_append, List.pairwise_append] at htail
  have hLmem : elast ∈ e₀ :: (mid ++ [elast]) := by simp
  have hmid_sub : ∀ e ∈ mid, e ∈ e₀ :: (mid ++ [elast]) := by
    intro e he; simp [he]
  have hkey₀L : e₀.cacheKey ≠ elast.cacheKey := by
    apply hhead
    rw [List.map_append]
    exact List.mem_append_right _ (by simp)
  have hkey₀mid : ∀ e ∈ mid, e.cacheKey ≠ e₀.cacheKey := by
    intro e he
    exact fun hcontra => hhead e.cacheKey
      (by rw [List.map_append]
          exact List.mem_append_left _ (List.mem_map_of_mem Entity.cacheKey he)) hcontra.symm
  have hmidL : ∀ e ∈ mid, e.cacheKey ≠ elast.cacheKey := by
    intro e he
    exact htail.2.2 e.cacheKey (List.mem_map_of_mem Entity.cacheKey he) elast.cacheKey (by simp)
  -- first call: fresh insertion into the empty cache
  rw [run_cons]
  have h1 : (entitytag e₀ false initialState).2 =
      ⟨[(e₀.cacheKey, ⟨e₀, strongTagOf e₀⟩)], [e₀.cacheKey], []⟩ := by
    rw [entitytag_fresh_small e₀ false initialState (hne e₀ (by simp)) rfl
      (by show (0 : Nat) < HASH_CACHE_SIZE; decide)]
    rfl
  rw [h1, run_append]
  -- next `mid.length` calls: fresh insertions below capacity
  have h2 := run_fresh mid ⟨[(e₀.cacheKey, ⟨e₀, strongTagOf e₀⟩)], [e₀.cacheKey], []⟩
    (fun e he => hne e (hmid_sub e he))
    (by
      intro e he
      show mapGet [(e₀.cacheKey, (⟨e₀, strongTagOf e₀⟩ : HashEntry))] e.cacheKey = none
      rw [mapGet_cons, if_neg fun hcontra => hkey₀mid e he hcontra.symm]
      rfl)
    htail.1
    (by simp; omega)
  rw [h2]
  -- last call: fresh insertion at capacity, evicting `e₀`
  have h3 := entitytag_fresh_evict elast false
    (⟨[(e₀.cacheKey, ⟨e₀, strongTagOf e₀⟩)] ++
        mid.map (fun e => (e.cacheKey, ⟨e, strongTagOf e⟩)),
      [e₀.cacheKey] ++ mid.map Entity.cacheKey, []⟩ : EtagState)
    (hne elast hLmem)
    (by
      show mapGet ((e₀.cacheKey, (⟨e₀, strongTagOf e₀⟩ : HashEntry)) ::
        mid.map (fun e => (e.cacheKey, ⟨e, strongTagOf e⟩))) elast.cacheKey = none
      rw [mapGet_cons, if_neg hkey₀L]
      exact mapGet_entries_none hmidL)
    (by simp; omega)
    rfl
  rw [run_cons, run_nil, h3]
  rw [List.singleton_append, mapDelete_cons_of_eq rfl]
  simp

/-! ## The capacity overflow scenario -/

theorem hitTag_of_mismatch {s : EtagState} {e : Entity} {c : HashEntry}
    (hget : mapGet s.hashCache e.cacheKey = some c) (hcne : c.entity ≠ e) :
    hitTag (mapGet s.hashCache e.cacheKey) e = none := by
  rw [hget]
  simp only [hitTag]
  rw [if_neg hcne]

/-- A fingerprint-key hit with mismatched content below capacity: the entry is
overwritten in place, yet its key is pushed onto `hashCacheKeys` a second
time. -/
theorem entitytag_stale_small (e : Entity) (w : Bool) (s : EtagState) {c : HashEntry}
    (hlen : e.jsLength ≠ 0) (hget : mapGet s.hashCache e.cacheKey = some c)
    (hcne : c.entity ≠ e) (hsz : s.hashCache.length < HASH_CACHE_SIZE) :
    (entitytag e w s).2 = ⟨mapSet s.hashCache e.cacheKey ⟨e, strongTagOf e⟩,
      s.hashCacheKeys ++ [e.cacheKey], s.statCache⟩ := by
  rw [entitytag_miss_state e w s hlen (hitTag_of_mismatch hget hcne)]
  cases s with
  | mk hc hk sc =>
    simp only [insertHash]
    rw [if_neg (by simp only [] at hsz; omega)]


theorem ovK_eq_zbuf3 : ovK = (zbuf 3).cacheKey := by decide

theorem ovK_ne_zbuf {n : Nat} (h0 : n ≠ 0) (h3 : n ≠ 3) : ovK ≠ (zbuf n).cacheKey := by
  rw [ovK_eq_zbuf3]
  exact zbuf_key_ne (by omega) h0 (fun hc => h3 hc.symm)

theorem ovFm_get_none {k : String}
    (hk : ∀ n : Nat, 4 ≤ n → n < 1003 → (zbuf n).cacheKey ≠ k) :
    mapGet ovFm k = none := by
  apply mapGet_entries_none
  intro e he
  obtain ⟨n, hn, rfl⟩ := List.mem_map.1 he
  rw [List.mem_range'_1] at hn
  exact hk n (by omega) (by omega)

theorem ovFm_len : ovFm.length = 999 := by
  simp [ovFm, ovFill]

theorem ov_step1 : (entitytag (Entity.buf [0, 5, 0]) false initialState).2 =
    ⟨[(ovK, ⟨Entity.buf [0, 5, 0], strongTagOf (Entity.buf [0, 5, 0])⟩)], [ovK], []⟩ := by
  rw [entitytag_fresh_small (Entity.buf [0, 5, 0]) false initialState (by decide) rfl
    (by show (0 : Nat) < HASH_CACHE_SIZE; decide)]
  rfl

theorem ov_step2 : (entitytag (Entity.buf [0, 7, 0]) false
    ⟨[(ovK, ⟨Entity.buf [0, 5, 0], strongTagOf (Entity.buf [0, 5, 0])⟩)], [ovK], []⟩).2 =
    ⟨[(ovK, ovE2)], [ovK, ovK], []⟩ := by
  have hkey12 : (Entity.buf [0, 7, 0]).cacheKey = ovK := by decide
  have hget : mapGet
      [(ovK, (⟨Entity.buf [0, 5, 0], strongTagOf (Entity.buf [0, 5, 0])⟩ : HashEntry))]
      (Entity.buf [0, 7, 0]).cacheKey =
      some ⟨Entity.buf [0, 5, 0], strongTagOf (Entity.buf [0, 5, 0])⟩ := by
    rw [hkey12, mapGet_cons, if_pos rfl]
  rw [entitytag_stale_small (Entity.buf [0, 7, 0]) false _ (by decide) hget (by decide)
    (by show (1 : Nat) < HASH_CACHE_SIZE; decide)]
  rw [hkey12]
  simp [mapSet, ovE2]

theorem ov_step3 : runEnt ovFill ⟨[(ovK, ovE2)], [ovK, ovK], []⟩ =
    ⟨(ovK, ovE2) :: ovFm, ovK :: ovK :: ovFk, []⟩ := by
  rw [run_fresh ovFill ⟨[(ovK, ovE2)], [ovK, ovK], []⟩
    (by
      intro e he
      obtain ⟨n, hn, rfl⟩ := List.mem_map.1 he
      rw [List.mem_range'_1] at hn
      rw [zbuf_jsLength]
      omega)
    (by
      intro e he
      obtain ⟨n, hn, rfl⟩ := List.mem_map.1 he
      rw [List.mem_range'_1] at hn
      show mapGet [(ovK, ovE2)] (zbuf n).cacheKey = none
      rw [mapGet_cons, if_neg (ovK_ne_zbuf (by omega) (by omega))]
      rfl)
    (zbuf_fam_pairwise
      (by intro n hn; rw [List.mem_range'_1] at hn; omega)
      (range'_pairwise_ne 4 999))
    (by
      show (1 : Nat) + ovFill.length ≤ HASH_CACHE_SIZE
      simp only [ovFill, List.length_map, List.length_range']
      decide)]
  rfl

theorem ov_step4 : (entitytag (zbuf 1003) false
    ⟨(ovK, ovE2) :: ovFm, ovK :: ovK :: ovFk, []⟩).2 =
    ⟨ovFm ++ [((zbuf 1003).cacheKey, ⟨zbuf 1003, strongTagOf (zbuf 1003)⟩)],
      (ovK :: ovFk) ++ [(zbuf 1003).cacheKey], []⟩ := by
  rw [entitytag_fresh_evict (zbuf 1003) false
    (⟨(ovK, ovE2) :: ovFm, ovK :: ovK :: ovFk, []⟩ : EtagState)
    (by rw [zbuf_jsLength]; omega)
    (by
      show mapGet ((ovK, ovE2) :: ovFm) (zbuf 1003).cacheKey = none
      rw [mapGet_cons, if_neg (ovK_ne_zbuf (by omega) (by omega))]
      exact ovFm_get_none (fun n h4 h1003 =>
        zbuf_key_ne (by omega) (by omega) (by omega)))
    (by
      show HASH_CACHE_SIZE ≤ ((ovK, ovE2) :: ovFm).length
      rw [List.length_cons, ovFm_len]
      decide)
    rfl]
  rw [mapDelete_cons_of_eq rfl]

theorem ov_step5 : (entitytag (zbuf 1004) false
    ⟨ovFm ++ [((zbuf 1003).cacheKey, ⟨zbuf 1003, strongTagOf (zbuf 1003)⟩)],
      (ovK :: ovFk) ++ [(zbuf 1003).cacheKey], []⟩).2 =
    ⟨(ovFm ++ [((zbuf 1003).cacheKey, ⟨zbuf 1003, strongTagOf (zbuf 1003)⟩)]) ++
        [((zbuf 1004).cacheKey, ⟨zbuf 1004, strongTagOf (zbuf 1004)⟩)],
      (ovFk ++ [(zbuf 1003).cacheKey]) ++ [(zbuf 1004).cacheKey], []⟩ := by
  have hfresh : mapGet (ovFm ++
      [((zbuf 1003).cacheKey, (⟨zbuf 1003, strongTagOf (zbuf 1003)⟩ : HashEntry))])
      (zbuf 1004).cacheKey = none := by
    rw [mapGet_append_of_none _ (ovFm_get_none (fun n h4 h1003 =>
      zbuf_key_ne (by omega) (by omega) (by omega)))]
    rw [mapGet_cons, if_neg (zbuf_key_ne (by omega) (by omega)
      (by omega : (1003 : Nat) ≠ 1004))]
    rfl
  have h := entitytag_fresh_evict (zbuf 1004) false
    (⟨ovFm ++ [((zbuf 1003).cacheKey, ⟨zbuf 1003, strongTagOf (zbuf 1003)⟩)],
      (ovK :: ovFk) ++ [(zbuf 1003).cacheKey], []⟩ : EtagState)
    (by rw [zbuf_jsLength]; omega)
    hfresh
    (by
      show HASH_CACHE_SIZE ≤ (ovFm ++
        [((zbuf 1003).cacheKey, (⟨zbuf 1003, strongTagOf (zbuf 1003)⟩ : HashEntry))]).length
      rw [List.length_append, ovFm_len]
      decide)
    rfl
  rw [mapDelete_of_none (by
    rw [mapGet_append_of_none _ (ovFm_get_none (fun n h4 h1003 hc =>
      ovK_ne_zbuf (by omega) (by omega) hc.symm))]
    rw [mapGet_cons, if_neg (fun hc => ovK_ne_zbuf (by omega) (by omega) hc.symm)]
    rfl)] at h
  exact h

/-- After the `overflowSeq` call sequence the content cache holds
`HASH_CACHE_SIZE + 1 = 1001` entries: the duplicated key `"3-0-0"` in
`hashCacheKeys` makes one eviction a no-op while an insertion still happens. -/
theorem overflow_run_length :
    (runEnt overflowSeq initialState).hashCache.length = HASH_CACHE_SIZE + 1 := by
  have hr1 : List.range' 1003 1 = [1003] := rfl
  have hr2 : List.range' 1004 1 = [1004] := rfl
  have hsplit : List.range' 4 1001 = (List.range' 4 999 ++ [1003]) ++ [1004] := by
    have e1 : List.range' 4 999 ++ List.range' 1003 1 = List.range' 4 1000 :=
      List.range'_append_1 4 999 1
    have e2 : List.range' 4 1000 ++ List.range' 1004 1 = List.range' 4 1001 :=
      List.range'_append_1 4 1000 1
    rw [← e2, ← e1, hr1, hr2]
  show (runEnt (Entity.buf [0, 5, 0] :: Entity.buf [0, 7, 0] ::
    (List.range' 4 1001).map zbuf) initialState).hashCache.length = HASH_CACHE_SIZE + 1
  rw [run_cons, ov_step1, run_cons, ov_step2, hsplit, List.map_append, List.map_append]
  rw [run_append, run_append]
  have hfill : (List.range' 4 999).map zbuf = ovFill := rfl
  rw [hfill, ov_step3]
  simp only [List.map_cons, List.map_nil, run_cons, run_nil]
  rw [ov_step4, ov_step5]
  simp only [List.length_append, ovFm_len, List.length_cons, List.length_nil]
  decide

/-! ## `stattag` characterization -/

theorem stattag_hit (d : Stat) (w : Bool) (now : Nat) (s : EtagState) {c : StatEntry}
    (hget : mapGet s.statCache (statKey d) = some c)
    (httl : now - c.timestamp < STAT_CACHE_TTL) :
    stattag d w now s = (if w then c.weakTag else c.strongTag, s) := by
  simp only [stattag, hget]
  rw [if_pos httl]

theorem stattag_stale (d : Stat) (w : Bool) (now : Nat) (s : EtagState) {c : StatEntry}
    (hget : mapGet s.statCache (statKey d) = some c)
    (httl : STAT_CACHE_TTL ≤ now - c.timestamp) :
    stattag d w now s = statCompute d w now s := by
  simp only [stattag, hget]
  rw [if_neg (by omega)]

theorem stattag_miss (d : Stat) (w : Bool) (now : Nat) (s : EtagState)
    (hget : mapGet s.statCache (statKey d) = none) :
    stattag d w now s = statCompute d w now s := by
  simp only [stattag, hget]

theorem statCompute_fst (d : Stat) (w : Bool) (now : Nat) (s : EtagState) :
    (statCompute d w now s).1 = wrapWeak w (statTagOf d) := by
  cases w <;> rfl

theorem statCompute_get (d : Stat) (w : Bool) (now : Nat) (s : EtagState) :
    mapGet (statCompute d w now s).2.statCache (statKey d) =
      some ⟨statTagOf d, "W/" ++ statTagOf d, now⟩ := by
  show mapGet (if HASH_CACHE_SIZE < (mapSet s.statCache (statKey d)
      ⟨statTagOf d, "W/" ++ statTagOf d, now⟩).length
    then (mapSet s.statCache (statKey d)
      ⟨statTagOf d, "W/" ++ statTagOf d, now⟩).filter
      (fun p => now - p.2.timestamp < STAT_CACHE_TTL)
    else mapSet s.statCache (statKey d) ⟨statTagOf d, "W/" ++ statTagOf d, now⟩)
    (statKey d) = some ⟨statTagOf d, "W/" ++ statTagOf d, now⟩
  split
  · exact mapGet_filter _ (mapGet_mapSet_self _ _ _)
      (by simp only [Nat.sub_self]; decide)
  · exact mapGet_mapSet_self _ _ _

/-! ## The claims -/

/-- C1: collision safety of the content fingerprint cache. For every payload
`P` and coherent cache state, a second `computeTag(P)` call returns a string
identical to the first; for nonempty `P` the first call leaves `(P, tag P)`
at `P`'s fingerprint key (so the second call is a fingerprint-cache hit), and
every payload `P'` distinct from `P` but sharing `P`'s fingerprint key fails
the stored-payload equality check (`hitTag = none`, i.e. it is never served
the cached tag) and is answered with its own digest-derived tag. -/
theorem claim_C1_collision_safety (e : Entity) (w w' : Bool) (s : EtagState)
    (hc : HashCoherent s) :
    ((entitytag e w (entitytag e w s).2).1 = (entitytag e w s).1) ∧
    (e.jsLength ≠ 0 →
      mapGet (entitytag e w s).2.hashCache e.cacheKey = some ⟨e, strongTagOf e⟩ ∧
      (∀ e' : Entity, e' ≠ e → e'.cacheKey = e.cacheKey →
        hitTag (mapGet (entitytag e w s).2.hashCache e'.cacheKey) e' = none ∧
        (entitytag e' w' (entitytag e w s).2).1 = wrapWeak w' (strongTagOf e'))) := by
  have hc1 := entitytag_hashCoherent e w s hc
  refine ⟨?_, ?_⟩
  · rw [entitytag_fst e w _ hc1, entitytag_fst e w s hc]
  · intro hlen
    have hself := entitytag_mapGet_self e w s hc hlen
    refine ⟨hself, ?_⟩
    intro e' hne hkey
    constructor
    · rw [hkey, hself]
      simp only [hitTag]
      rw [if_neg (fun hc' => hne hc'.symm)]
    · exact entitytag_fst e' w' _ hc1

/-- Witness for C1 at `P = Buffer [0,5,0]`, `P' = Buffer [0,7,0]`: distinct
payloads sharing the fingerprint key `"3-0-0"`. -/
theorem claim_C1_witness :
    HashCoherent initialState ∧
    Entity.buf [0, 7, 0] ≠ Entity.buf [0, 5, 0] ∧
    (Entity.buf [0, 7, 0]).cacheKey = (Entity.buf [0, 5, 0]).cacheKey ∧
    (entitytag (Entity.buf [0, 7, 0]) true
      (entitytag (Entity.buf [0, 5, 0]) false initialState).2).1 =
      wrapWeak true (strongTagOf (Entity.buf [0, 7, 0])) := by
  refine ⟨hashCoherent_initial, by decide, by decide, ?_⟩
  exact (((claim_C1_collision_safety (Entity.buf [0, 5, 0]) false true initialState
    hashCoherent_initial).2 (by decide)).2 (Entity.buf [0, 7, 0]) (by decide) (by decide)).2

/-- C2 (violation): after the 1003-call sequence `overflowSeq`, the content
fingerprint cache holds `HASH_CACHE_SIZE + 1 = 1001` entries, exceeding the
fixed maximum — the duplicate key that a key-hit-with-mismatched-content call
pushes onto `hashCacheKeys` later makes one eviction delete nothing while the
insertion still happens. -/
theorem claim_C2_capacity_overflow :
    HASH_CACHE_SIZE < (runEnt overflowSeq initialState).hashCache.length ∧
    (runEnt overflowSeq initialState).hashCache.length = HASH_CACHE_SIZE + 1 :=
  ⟨overflow_run_length ▸ Nat.lt_succ_self HASH_CACHE_SIZE, overflow_run_length⟩

/-- C3: determinism. For every payload (string or Buffer) and weak-option
value, `computeTag` returns the same string in any two states reachable by
any interleaving of other calls — and that string is the digest-derived
tag. -/
theorem claim_C3_determinism (e : Entity) (opts : Option EtagOptions)
    (now₁ now₂ : Nat) (s₁ s₂ : EtagState) (h₁ : Reachable s₁) (h₂ : Reachable s₂) :
    (etag e.toJsValue opts now₁ s₁).1 = (etag e.toJsValue opts now₂ s₂).1 ∧
    (etag e.toJsValue opts now₁ s₁).1 =
      .ok (wrapWeak (payloadWeak opts) (strongTagOf e)) := by
  have r₁ := etag_payload_fst e opts now₁ s₁ (reachable_hashCoherent h₁)
  have r₂ := etag_payload_fst e opts now₂ s₂ (reachable_hashCoherent h₂)
  exact ⟨r₁.trans r₂.symm, r₁⟩

/-- Witness for C3 at the payload `"a"` and the initial state. -/
theorem claim_C3_witness :
    (etag (Entity.str "a").toJsValue none 0 initialState).1 =
      (etag (Entity.str "a").toJsValue none 5 initialState).1 :=
  (claim_C3_determinism (Entity.str "a") none 0 5 initialState initialState
    Reachable.init Reachable.init).1

/-- C4: FIFO eviction law. Starting from the empty cache, inserting
`HASH_CACHE_SIZE + 1` nonempty payloads with pairwise-distinct fingerprint
keys evicts exactly the first-inserted entry: its key is gone, every other
payload's entry is still present, and the cache holds exactly
`HASH_CACHE_SIZE` entries. -/
theorem claim_C4_fifo_eviction (e₀ : Entity) (rest : List Entity)
    (hlen : rest.length = HASH_CACHE_SIZE)
    (hne : ∀ e ∈ e₀ :: rest, e.jsLength ≠ 0)
    (hpw : ((e₀ :: rest).map Entity.cacheKey).Pairwise (· ≠ ·)) :
    mapGet (runEnt (e₀ :: rest) initialState).hashCache e₀.cacheKey = none ∧
    (∀ e ∈ rest, mapGet (runEnt (e₀ :: rest) initialState).hashCache e.cacheKey =
      some ⟨e, strongTagOf e⟩) ∧
    (runEnt (e₀ :: rest) initialState).hashCache.length = HASH_CACHE_SIZE := by
  have hrne : rest ≠ [] := by
    intro hr
    rw [hr] at hlen
    exact absurd hlen (by decide)
  obtain ⟨mid, elast, hrest⟩ : ∃ mid elast, rest = mid ++ [elast] :=
    ⟨rest.dropLast, rest.getLast hrne, (List.dropLast_append_getLast hrne).symm⟩
  subst hrest
  have hmidlen : mid.length + 1 = HASH_CACHE_SIZE := by
    rw [List.length_append, List.length_cons, List.length_nil] at hlen
    omega
  have hcore := run_fifo_core e₀ elast mid hmidlen hne hpw
  rw [List.map_cons] at hpw
  have hpwc := List.pairwise_cons.1 hpw
  have hhead := hpwc.1
  have htail := hpwc.2
  rw [List.map_append, List.pairwise_append] at htail
  have hkey₀L : e₀.cacheKey ≠ elast.cacheKey := by
    apply hhead
    rw [List.map_append]
    exact List.mem_append_right _ (by simp)
  have hkey₀mid : ∀ e ∈ mid, e.cacheKey ≠ e₀.cacheKey := by
    intro e he hcontra
    exact hhead e.cacheKey
      (by rw [List.map_append]
          exact List.mem_append_left _ (List.mem_map_of_mem Entity.cacheKey he))
      hcontra.symm
  have hmidL : ∀ e ∈ mid, e.cacheKey ≠ elast.cacheKey := by
    intro e he
    exact htail.2.2 e.cacheKey (List.mem_map_of_mem Entity.cacheKey he)
      elast.cacheKey (by simp)
  rw [hcore]
  refine ⟨?_, ?_, ?_⟩
  · show mapGet (mid.map (fun e => (e.cacheKey, (⟨e, strongTagOf e⟩ : HashEntry))) ++
      [(elast.cacheKey, ⟨elast, strongTagOf elast⟩)]) e₀.cacheKey = none
    rw [mapGet_append_of_none _ (mapGet_entries_none hkey₀mid)]
    rw [mapGet_cons, if_neg (fun hcontra => hkey₀L hcontra.symm)]
    rfl
  · intro e he
    rcases List.mem_append.1 he with he' | he'
    · exact mapGet_append_of_some _ (mapGet_entries_mem htail.1 he')
    · rcases List.mem_singleton.1 he' with rfl
      show mapGet (mid.map (fun x => (x.cacheKey, (⟨x, strongTagOf x⟩ : HashEntry))) ++
        [(e.cacheKey, ⟨e, strongTagOf e⟩)]) e.cacheKey = some ⟨e, strongTagOf e⟩
      rw [mapGet_append_of_none _ (mapGet_entries_none hmidL)]
      rw [mapGet_cons, if_pos rfl]
  · show (mid.map (fun (x : Entity) => (x.cacheKey, (⟨x, strongTagOf x⟩ : HashEntry))) ++
      [(elast.cacheKey, (⟨elast, strongTagOf elast⟩ : HashEntry))]).length = HASH_CACHE_SIZE
    rw [List.length_append, List.length_map, List.length_cons, List.length_nil]
    omega

/-- Witness for C4 at the 1001 all-zero buffers of lengths 1 through 1001. -/
theorem claim_C4_witness :
    ((List.range' 2 1000).map zbuf).length = HASH_CACHE_SIZE ∧
    mapGet (runEnt (zbuf 1 :: (List.range' 2 1000).map zbuf) initialState).hashCache
      (zbuf 1).cacheKey = none := by
  have hlen : ((List.range' 2 1000).map zbuf).length = HASH_CACHE_SIZE := by
    simp only [List.length_map, List.length_range']
    decide
  have hne : ∀ e ∈ zbuf 1 :: (List.range' 2 1000).map zbuf, e.jsLength ≠ 0 := by
    intro e he
    rcases List.mem_cons.1 he with rfl | he'
    · rw [zbuf_jsLength]; omega
    · obtain ⟨n, hn, rfl⟩ := List.mem_map.1 he'
      rw [List.mem_range'_1] at hn
      rw [zbuf_jsLength]
      omega
  have hfam : zbuf 1 :: (List.range' 2 1000).map zbuf = (List.range' 1 1001).map zbuf := by
    rw [List.range'_succ]
    rfl
  have hpw : ((zbuf 1 :: (List.range' 2 1000).map zbuf).map Entity.cacheKey).Pairwise
      (· ≠ ·) := by
    rw [hfam]
    exact zbuf_fam_pairwise
      (by intro n hn; rw [List.mem_range'_1] at hn; omega)
      (range'_pairwise_ne 1 1001)
  exact ⟨hlen, (claim_C4_fifo_eviction (zbuf 1) ((List.range' 2 1000).map zbuf)
    hlen hne hpw).1⟩

/-- C5: metadata cache TTL behaviour. A `stattag` call whose key is cached
with age strictly below `STAT_CACHE_TTL` returns the cached strong or weak
tag and leaves the state untouched; a call whose cached entry's age is at or
beyond the TTL recomputes both tags and overwrites the entry with insertion
timestamp `now`. -/
theorem claim_C5_stat_ttl (d : Stat) (w : Bool) (now : Nat) (s : EtagState)
    (c : StatEntry) (hget : mapGet s.statCache (statKey d) = some c) :
    (now - c.timestamp < STAT_CACHE_TTL →
      (stattag d w now s).1 = (if w then c.weakTag else c.strongTag) ∧
      (stattag d w now s).2 = s) ∧
    (STAT_CACHE_TTL ≤ now - c.timestamp →
      (stattag d w now s).1 = wrapWeak w (statTagOf d) ∧
      mapGet (stattag d w now s).2.statCache (statKey d) =
        some ⟨statTagOf d, "W/" ++ statTagOf d, now⟩) := by
  constructor
  · intro httl
    rw [stattag_hit d w now s hget httl]
    exact ⟨rfl, rfl⟩
  · intro httl
    rw [stattag_stale d w now s hget httl]
    exact ⟨statCompute_fst d w now s, statCompute_get d w now s⟩

/-- Witness for C5: seed the cache at time 100 with the descriptor
`ino = 1, mtime = 1500 ms, size = 10`, then hit it at time 101 (age 1 ms,
within the TTL). -/
theorem claim_C5_witness :
    mapGet (stattag ⟨1, 1500, 10⟩ false 100 initialState).2.statCache
      (statKey ⟨1, 1500, 10⟩) =
      some ⟨statTagOf ⟨1, 1500, 10⟩, "W/" ++ statTagOf ⟨1, 1500, 10⟩, 100⟩ ∧
    (stattag ⟨1, 1500, 10⟩ false 101 (stattag ⟨1, 1500, 10⟩ false 100 initialState).2).1 =
      statTagOf ⟨1, 1500, 10⟩ ∧
    (stattag ⟨1, 1500, 10⟩ false 101 (stattag ⟨1, 1500, 10⟩ false 100 initialState).2).2 =
      (stattag ⟨1, 1500, 10⟩ false 100 initialState).2 := by
  have hget : mapGet (stattag ⟨1, 1500, 10⟩ false 100 initialState).2.statCache
      (statKey ⟨1, 1500, 10⟩) =
      some ⟨statTagOf ⟨1, 1500, 10⟩, "W/" ++ statTagOf ⟨1, 1500, 10⟩, 100⟩ := by rfl
  have h := (claim_C5_stat_ttl ⟨1, 1500, 10⟩ false 101
    (stattag ⟨1, 1500, 10⟩ false 100 initialState).2
    ⟨statTagOf ⟨1, 1500, 10⟩, "W/" ++ statTagOf ⟨1, 1500, 10⟩, 100⟩ hget).1
    (by decide)
  exact ⟨hget, h.1, h.2⟩

/-- C6: content tag format. For every non-empty payload, in any coherent
cache state, `entitytag` returns exactly the spec-worded tag: a quote, the
byte length in hexadecimal (raw length for a Buffer, UTF-8 encoded length
for a string), a dash, the first 27 characters of the base64-encoded SHA-1
digest of the payload, a quote — with the weak form being the same string
prefixed by `W/`. -/
theorem claim_C6_content_tag_format (e : Entity) (w : Bool) (s : EtagState)
    (hc : HashCoherent s) (hlen : e.jsLength ≠ 0) :
    (entitytag e w s).1 = specContentTag e w := by
  rw [entitytag_fst e w s hc]
  cases e <;> cases w <;> rfl

/-- Witness for C6 at the payload `"hi"` and the initial state. -/
theorem claim_C6_witness :
    HashCoherent initialState ∧ (Entity.str "hi").jsLength ≠ 0 ∧
    (entitytag (Entity.str "hi") false initialState).1 =
      specContentTag (Entity.str "hi") false :=
  ⟨hashCoherent_initial, by decide,
    claim_C6_content_tag_format (Entity.str "hi") false initialState
      hashCoherent_initial (by decide)⟩

/-- C7: metadata tag format. On any uncached key (in particular at insertion
time), `stattag` returns `'"' + size-hex + '-' + mtime-hex + '"'`, prefixed
with `W/` in the weak form; in particular the descriptor
`size = 0, mtime = epoch(0), ino = 1` dispatched through `etag` (which
defaults metadata descriptors to weak) yields exactly `W/"0-0"`. -/
theorem claim_C7_stat_tag_format :
    (∀ (d : Stat) (w : Bool) (now : Nat) (s : EtagState),
      mapGet s.statCache (statKey d) = none →
      (stattag d w now s).1 =
        wrapWeak w ("\"" ++ intToHex d.size ++ "-" ++ intToHex d.mtimeMs ++ "\"")) ∧
    (etag (.obj ⟨false, some (.date 0), some (.date 0), some (.num 1), some (.num 0)⟩)
      none 0 initialState).1 = .ok "W/\"0-0\"" := by
  constructor
  · intro d w now s hget
    rw [stattag_miss d w now s hget, statCompute_fst]
    rfl
  · show _ = Except.ok ("W/\"0-0\"" : String)
    rw [show ("W/\"0-0\"" : String) =
      "W/" ++ ("\"" ++ intToHex (0 : Int) ++ "-" ++ intToHex (0 : Int) ++ "\"") from by decide]
    rfl

/-- Witness for C7's miss-path clause at `ino = 1, mtime = 0, size = 0` from
the initial (empty) state. -/
theorem claim_C7_witness :
    mapGet initialState.statCache (statKey ⟨1, 0, 0⟩) = none ∧
    (stattag ⟨1, 0, 0⟩ true 0 initialState).1 =
      wrapWeak true ("\"" ++ intToHex (0 : Int) ++ "-" ++ intToHex (0 : Int) ++ "\"") :=
  ⟨rfl, claim_C7_stat_tag_format.1 ⟨1, 0, 0⟩ true 0 initialState rfl⟩

/-- C8: raises-iff for `InvalidArgument`. `etag` returns its `TypeError`
exactly when the entity is absent (`null`/`undefined`) or is neither a
string, nor a Buffer, nor a value passing the `isstats` shape check; on every
accepted input it returns a tag string (`isOk`), with the cache and digest
components never raising. -/
theorem claim_C8_invalid_argument (v : JsValue) (opts : Option EtagOptions)
    (now : Nat) (s : EtagState) :
    (etag v opts now s).1.isOk = false ↔
      (v = .nullish ∨
        (v.isString = false ∧ v.isBuffer = false ∧ isstats v = false)) := by
  cases v with
  | nullish =>
    constructor
    · intro _; exact Or.inl rfl
    · intro _; rfl
  | str s₀ =>
    constructor
    · intro h
      simp [etag, Except.isOk, Except.toBool] at h
    · rintro (h | ⟨hstr, _, _⟩)
      · cases h
      · simp [JsValue.isString] at hstr
  | buf b =>
    constructor
    · intro h
      simp [etag, Except.isOk, Except.toBool] at h
    · rintro (h | ⟨_, hbuf, _⟩)
      · cases h
      · simp [JsValue.isBuffer] at hbuf
  | num n =>
    constructor
    · intro _; exact Or.inr ⟨rfl, rfl, rfl⟩
    · intro _; rfl
  | bool b =>
    constructor
    · intro _; exact Or.inr ⟨rfl, rfl, rfl⟩
    · intro _; rfl
  | obj o =>
    cases hso : isstats (JsValue.obj o) with
    | true =>
      constructor
      · intro h
        simp [etag, hso, Except.isOk, Except.toBool] at h
      · rintro (h | ⟨_, _, hfalse⟩)
        · cases h
        · cases hfalse
    | false =>
      constructor
      · intro _; exact Or.inr ⟨rfl, rfl, rfl⟩
      · intro _
        simp [etag, hso, Except.isOk, Except.toBool]

/-- C9: empty-input fast path equivalence. For the empty string and the
empty Buffer, with either weak-option value and in any state, `entitytag`
returns the precomputed constants without touching the state — and those
constants equal exactly what the general digest path (`specContentTag`,
i.e. hex length + truncated base64 SHA-1) produces for a zero-length
input. -/
theorem claim_C9_empty_fast_path :
    (∀ (w : Bool) (s : EtagState),
      entitytag (.str "") w s = (if w then WEAK_EMPTY_TAG else EMPTY_TAG, s) ∧
      entitytag (.buf []) w s = (if w then WEAK_EMPTY_TAG else EMPTY_TAG, s)) ∧
    (∀ w : Bool, specContentTag (.str "") w = (if w then WEAK_EMPTY_TAG else EMPTY_TAG)) ∧
    (∀ w : Bool, specContentTag (.buf []) w = (if w then WEAK_EMPTY_TAG else EMPTY_TAG)) := by
  refine ⟨fun w s => ⟨rfl, rfl⟩, fun w => ?_, fun w => ?_⟩
  · cases w <;> decide
  · cases w <;> decide

/-- C10: cache coherence invariant. The initial state is coherent (every
content-cache entry maps its stored payload to exactly the tag a direct
digest computation yields); every `etag` call preserves coherence; and in a
coherent state a fingerprint-key hit that passes the stored-payload equality
check returns exactly the digest-derived tag of the queried payload. -/
theorem claim_C10_cache_coherence :
    HashCoherent initialState ∧
    (∀ (v : JsValue) (opts : Option EtagOptions) (now : Nat) (s : EtagState),
      HashCoherent s → HashCoherent (etag v opts now s).2) ∧
    (∀ (s : EtagState) (k : String) (e : Entity) (t : String),
      HashCoherent s → hitTag (mapGet s.hashCache k) e = some t →
      t = strongTagOf e) :=
  ⟨hashCoherent_initial, etag_hashCoherent,
    fun _ _ _ _ hc h => hitTag_correct hc h⟩

/-- Witness for C10: the state after one `etag` call on `"a"` from the
initial state is coherent. -/
theorem claim_C10_witness :
    HashCoherent (etag (.str "a") none 0 initialState).2 :=
  claim_C10_cache_coherence.2.1 (.str "a") none 0 initialState
    claim_C10_cache_coherence.1
